import Mathlib

/-!
Shallow embedding of the digest cache core of `dinghy-web`
(`src/dinghy_web/__main__.py`): the per-key refresh cache
`_DigestItemStore` (staleness policy, refresh, entry merging, time-filtered
reads) and the lazy registry `ItemStore`.

Modelling conventions:
  * Time is an `Int` counting minutes in UTC; `minutesPerDay` is the day
    length.  `datetime.utcnow()` / `datetime.today()` at a call become an
    explicit `now` argument; `utctoday()` is `dateOf`.
  * `updatedAt` timestamps are stored already parsed as such an `Int`
    (the Python code stores ISO strings and parses on comparison; entries
    coming from one upstream use one uniform format, so the string order
    and the parsed order agree).
  * Python dicts become association lists with dict semantics
    (`dictGet`/`dictSet`/`dictPop`); insertion order is preserved and a
    write to an existing key replaces in place, as in CPython.
  * The asynchronous fetch (`dinghy.digest.Digester` + `coro_from_item` +
    `asyncio.gather`) is an oracle `FetchFn`; `gather` either yields one
    result per item or propagates an exception, modelled by `Except`.
  * `sorted(..., key=itemgetter("updatedAt"), reverse=True)` is a stable
    descending sort, modelled by `List.insertionSort` with the reflexive
    "greater or equal `updatedAt`" relation (also stable).
-/

namespace DinghyWeb

/-- Length of one day, in the minute granularity used for timestamps. -/
def minutesPerDay : Int := 1440

/-- Model of `utctoday()` as seen from instant `t`: `t` truncated down to
UTC midnight of its day. -/
def dateOf (t : Int) : Int := t - t % minutesPerDay

/-- One upstream entry, as used by the store: its `id`, its `updatedAt`
timestamp (parsed), and the rest of its payload opaquely. -/
structure Entry where
  id : String
  updatedAt : Int
  data : String
  deriving DecidableEq, Repr

/-- A value in an options dict: either an opaque scalar or a list of item
specifications (the shape of the `"items"` key). -/
inductive OptVal where
  | str (s : String)
  | list (l : List String)
  deriving DecidableEq, Repr

/-- A Python dict of options, as an association list in insertion order. -/
abbrev Options := List (String × OptVal)

/-- `d.pop(k, None)`: remove key `k` if present. -/
def dictPop {β : Type} (d : List (String × β)) (k : String) :
    List (String × β) :=
  d.filter (fun p => p.1 ≠ k)

/-- `d.get(k)` / `k in d`: first binding of key `k`, if any. -/
def dictGet {β : Type} (d : List (String × β)) (k : String) : Option β :=
  (d.find? (fun p => p.1 = k)).map (fun p => p.2)

/-- `d[k] = v`: replace the value of the binding in place if the key is
present (dict keys are unique, so at most the first occurrence matters),
otherwise append the new binding, as CPython dicts do. -/
def dictSet {β : Type} : List (String × β) → String → β → List (String × β)
  | [], k, v => [(k, v)]
  | p :: d, k, v => if p.1 = k then (k, v) :: d else p :: dictSet d k v

/-- `result[entry["id"]] = entry` on the id-keyed dict built in
`_merge_entries`: overwrite in place when the id is present, else append. -/
def entryUpsert : List Entry → Entry → List Entry
  | [], e => [e]
  | x :: m, e => if x.id = e.id then e :: m else x :: entryUpsert m e

/-- Descending recency: `a` sorts no later than `b`. -/
def entryGE (a b : Entry) : Prop := b.updatedAt ≤ a.updatedAt

instance : DecidableRel entryGE := fun a b =>
  inferInstanceAs (Decidable (b.updatedAt ≤ a.updatedAt))

instance : IsTotal Entry entryGE :=
  ⟨fun a b => (le_total b.updatedAt a.updatedAt).imp (fun h => h) (fun h => h)⟩

instance : IsTrans Entry entryGE :=
  ⟨fun _ _ _ h1 h2 => le_trans h2 h1⟩

/-- `sorted(..., key=itemgetter("updatedAt"), reverse=True)`: stable sort,
most recent `updatedAt` first. -/
def sortByUpdatedAtDesc (l : List Entry) : List Entry :=
  List.insertionSort entryGE l

/-- `_DigestItemStore._merge_entries(existing, new)`: build the id-keyed dict from
`existing`, overwrite with each entry of `new`, sort the values by
`updatedAt` descending. -/
def mergeEntries (existing new : List Entry) : List Entry :=
  sortByUpdatedAtDesc (new.foldl entryUpsert (existing.foldl entryUpsert []))

/-- The state of one `_DigestItemStore`. -/
structure DigestItemStore where
  options : Options
  items : List String
  maxLookBack : Int
  refreshAfter : Int
  lastEntry : Int
  digests : List String
  entries : List (List Entry)
  deriving DecidableEq, Repr

/-- What one `coro_from_item` yields on success: the digest dict split into
its non-`"entries"` part (opaque metadata) and its `"entries"` list. -/
structure FetchResult where
  digest : String
  entries : List Entry
  deriving DecidableEq, Repr

/-- The upstream fetch oracle: options, one item spec, and the `since`
bound; an exception is `Except.error ()`. -/
abbrev FetchFn := Options → String → Int → Except Unit FetchResult

/-- `_DigestItemStore.__init__(options, max_look_back, refresh_after)`:
pop `"since"`, `"digest"` and `"items"` from the options dict (the stored
`_options` aliases the mutated dict, so it lacks all three), keep the items
list, and start `_last_entry` two lookbacks in the past with one empty
digest dict and one empty entry list per item.  `none` models the
`KeyError` when `"items"` is absent or not a list. -/
def initStore (options : Options) (maxLookBack refreshAfter now : Int) :
    Option DigestItemStore :=
  let o1 := dictPop options "since"
  let o2 := dictPop o1 "digest"
  match dictGet o2 "items" with
  | some (OptVal.list items) =>
      some { options := dictPop o2 "items"
             items := items
             maxLookBack := maxLookBack
             refreshAfter := refreshAfter
             lastEntry := now - 2 * maxLookBack
             digests := List.replicate items.length ""
             entries := List.replicate items.length [] }
  | _ => none

/-- `asyncio.gather` over `coro_from_item` for each item: one result per
item, or the exception of a failing coroutine. -/
def fetchAll (fetch : FetchFn) (opts : Options) (since : Int) :
    List String → Except Unit (List FetchResult)
  | [] => Except.ok []
  | item :: rest =>
      match fetch opts item since with
      | Except.error e => Except.error e
      | Except.ok r =>
          match fetchAll fetch opts since rest with
          | Except.error e => Except.error e
          | Except.ok rs => Except.ok (r :: rs)

/-- The indexed loop `self._digests[i] = ...`: positions covered by a
result take its metadata, positions beyond keep their old value. -/
def applyDigests : List String → List FetchResult → List String
  | ds, [] => ds
  | [], _ => []
  | _ :: ds, r :: rs => r.digest :: applyDigests ds rs

/-- The indexed loop over `self._entries`: a position with a non-empty
fetched entry list is merged, an empty one (falsy in Python) is skipped. -/
def applyEntries : List (List Entry) → List FetchResult → List (List Entry)
  | es, [] => es
  | [], _ => []
  | e :: es, r :: rs =>
      (if r.entries.isEmpty then e else mergeEntries e r.entries)
        :: applyEntries es rs

/-- `_DigestItemStore._refresh(since)` at instant `now`: stamp
`_last_entry = now` first, then await the gathered fetches; on success
replace each digest and merge each non-empty entry list, on failure leave
everything else unchanged and report the exception (`some e`). -/
def refreshStep (s : DigestItemStore) (fetch : FetchFn) (now since : Int) :
    DigestItemStore × Option Unit :=
  let s1 := { s with lastEntry := now }
  match fetchAll fetch s1.options since s1.items with
  | Except.error e => (s1, some e)
  | Except.ok results =>
      ({ s1 with
          digests := applyDigests s1.digests results
          entries := applyEntries s1.entries results }, none)

/-- `entry for entry in entries if to_datetime(entry["updatedAt"]) > since`. -/
def filterSince (since : Int) (entries : List Entry) : List Entry :=
  entries.filter (fun e => since < e.updatedAt)

/-- The response assembled at the end of `get`: for each
`(digest, entries)` pair of `zip(self._digests, self._entries)` the digest
metadata paired with its time-filtered entries. -/
def views (since : Int) (ds : List String) (es : List (List Entry)) :
    List (String × List Entry) :=
  (ds.zip es).map (fun p => (p.1, filterSince since p.2))

instance {ε α : Type} [DecidableEq ε] [DecidableEq α] :
    DecidableEq (Except ε α) := fun x y =>
  match x, y with
  | Except.error a, Except.error b =>
      if h : a = b then isTrue (by rw [h])
      else isFalse (fun hc => by cases hc; exact h rfl)
  | Except.error _, Except.ok _ => isFalse (fun hc => Except.noConfusion hc)
  | Except.ok _, Except.error _ => isFalse (fun hc => Except.noConfusion hc)
  | Except.ok a, Except.ok b =>
      if h : a = b then isTrue (by rw [h])
      else isFalse (fun hc => by cases hc; exact h rfl)

/-- Outcome of one `get` call: the store state afterwards, the returned
value or the propagated exception, and the `since` arguments of the
refreshes performed (at most one). -/
structure GetResult where
  store : DigestItemStore
  out : Except Unit (List (String × List Entry))
  fetchCalls : List Int
  deriving DecidableEq, Repr

/-- `_DigestItemStore.get(since)` at instant `now`: under the per-store
lock, force a full refresh from `utctoday() - max_look_back` when
`_last_entry` predates it, else refresh from `_last_entry` when more than
`refresh_after` has passed, else touch nothing; a raising refresh
propagates, otherwise the filtered view of the (possibly refreshed) state
is returned. -/
def storeGet (s : DigestItemStore) (fetch : FetchFn) (now since : Int) :
    GetResult :=
  let step : DigestItemStore × Option Unit × List Int :=
    if s.lastEntry < dateOf now - s.maxLookBack then
      let r := refreshStep s fetch now (dateOf now - s.maxLookBack)
      (r.1, r.2, [dateOf now - s.maxLookBack])
    else if s.lastEntry + s.refreshAfter < now then
      let r := refreshStep s fetch now s.lastEntry
      (r.1, r.2, [s.lastEntry])
    else (s, none, [])
  match step.2.1 with
  | some e => ⟨step.1, Except.error e, step.2.2⟩
  | none =>
      ⟨step.1, Except.ok (views since step.1.digests step.1.entries),
        step.2.2⟩

/-- The `Digest` dataclass: title, filename (the registry key) and the
options handed to a store on construction. -/
structure Digest where
  title : String
  filename : String
  options : Options
  deriving DecidableEq, Repr

/-- The state of the registry `ItemStore`: the configured lookback and the
filename-keyed dict of per-key stores. -/
structure ItemStoreState where
  maxLookBack : Int
  stores : List (String × DigestItemStore)
  deriving DecidableEq, Repr

/-- `ItemStore()` as built in `main()`: default seven-day lookback, no
stores yet. -/
def itemStoreInit : ItemStoreState :=
  { maxLookBack := 7 * minutesPerDay, stores := [] }

/-- Outcome of one `ItemStore.get` call. -/
structure RegistryResult where
  registry : ItemStoreState
  out : Except Unit (List (String × List Entry))
  fetchCalls : List Int
  created : Bool
  deriving DecidableEq, Repr

/-- `ItemStore.get(digest, since)` at instant `now`: construct the per-key
store on first access for `digest.filename` (with the registry's lookback
and the default 30-minute `refresh_after`), then delegate to that store;
the store's post-call state replaces it under its key (in Python the same
object mutates in place).  `none` models the `KeyError` of a construction
without an `"items"` option. -/
def registryGet (r : ItemStoreState) (digest : Digest) (fetch : FetchFn)
    (now since : Int) : Option RegistryResult :=
  match dictGet r.stores digest.filename with
  | some s =>
      let g := storeGet s fetch now since
      some ⟨{ r with stores := dictSet r.stores digest.filename g.store },
        g.out, g.fetchCalls, false⟩
  | none =>
      match initStore digest.options r.maxLookBack 30 now with
      | none => none
      | some s0 =>
          let g := storeGet s0 fetch now since
          some ⟨{ r with stores := dictSet r.stores digest.filename g.store },
            g.out, g.fetchCalls, true⟩

/-- Entry lists are unique by id when their id projection has no
duplicate. -/
def uniqueById (l : List Entry) : Prop := (l.map Entry.id).Nodup

instance (l : List Entry) : Decidable (uniqueById l) :=
  inferInstanceAs (Decidable (l.map Entry.id).Nodup)

/-- Sorted most-recent-first. -/
def sortedDesc (l : List Entry) : Prop := List.Sorted entryGE l

instance (l : List Entry) : Decidable (sortedDesc l) :=
  inferInstanceAs (Decidable (List.Pairwise entryGE l))

/-! ### Concrete instances used to exercise the definitions -/

/-- A stored entry with id "1". -/
def e1 : Entry := ⟨"1", 500, "a"⟩

/-- A fetched entry with a fresh id "2". -/
def e2 : Entry := ⟨"2", 700, "b"⟩

/-- A fetched entry re-delivering id "1" with a newer timestamp. -/
def e1b : Entry := ⟨"1", 600, "c"⟩

/-- A one-item store holding `e1`, last refreshed at minute 0. -/
def exStore : DigestItemStore :=
  { options := []
    items := ["it"]
    maxLookBack := 10080
    refreshAfter := 30
    lastEntry := 0
    digests := ["meta"]
    entries := [[e1]] }

/-- The same store refreshed recently (minute 90). -/
def exFresh : DigestItemStore := { exStore with lastEntry := 90 }

/-- A fetch that always raises. -/
def failFetch : FetchFn := fun _ _ _ => Except.error ()

/-- A fetch that always succeeds with two entries. -/
def okFetch : FetchFn := fun _ _ _ => Except.ok ⟨"meta2", [e1b, e2]⟩

/-- A configured digest with an `"items"` option. -/
def exDigest : Digest := ⟨"T", "t.html", [("items", OptVal.list ["it"])]⟩

/-- An options dict carrying the three reserved keys and one other key. -/
def exOpts : Options :=
  [("since", OptVal.str "3d"), ("digest", OptVal.str "x.html"),
   ("items", OptVal.list ["it"]), ("extra", OptVal.str "y")]

/-- The store `initStore exDigest.options 10080 30 100` constructs. -/
def exStore0 : DigestItemStore :=
  { options := []
    items := ["it"]
    maxLookBack := 10080
    refreshAfter := 30
    lastEntry := 100 - 2 * 10080
    digests := [""]
    entries := [[]] }

/-- The store `initStore exOpts 10080 30 100` constructs. -/
def exStoreOpts : DigestItemStore :=
  { options := [("extra", OptVal.str "y")]
    items := ["it"]
    maxLookBack := 10080
    refreshAfter := 30
    lastEntry := 100 - 2 * 10080
    digests := [""]
    entries := [[]] }

/-! ### Association-list dictionary lemmas -/

theorem dictGet_dictPop_self {β : Type} (d : List (String × β)) (k : String) :
    dictGet (dictPop d k) k = none := by
  simp only [dictGet, dictPop, Option.map_eq_none', List.find?_eq_none]
  intro p hp
  rcases List.mem_filter.mp hp with ⟨-, hne⟩
  simpa using hne

theorem dictGet_dictPop_none {β : Type} (d : List (String × β))
    (k k' : String) (h : dictGet d k = none) :
    dictGet (dictPop d k') k = none := by
  simp only [dictGet, Option.map_eq_none', List.find?_eq_none] at h ⊢
  intro p hp
  exact h p (List.mem_filter.mp hp).1

theorem dictPop_dictPop_self {β : Type} (d : List (String × β))
    (k : String) : dictPop (dictPop d k) k = dictPop d k := by
  apply List.filter_eq_self.mpr
  intro p hp
  exact (List.mem_filter.mp hp).2

theorem dictGet_dictSet_self {β : Type} (d : List (String × β))
    (k : String) (v : β) : dictGet (dictSet d k v) k = some v := by
  induction d with
  | nil => simp [dictSet, dictGet]
  | cons p d ih =>
      by_cases hp : p.1 = k
      · simp [dictSet, hp, dictGet]
      · simpa [dictSet, hp, dictGet, List.find?_cons] using ih

theorem dictGet_dictSet_ne {β : Type} (d : List (String × β))
    (k k' : String) (v : β) (h : k' ≠ k) :
    dictGet (dictSet d k v) k' = dictGet d k' := by
  have h2 : k ≠ k' := Ne.symm h
  induction d with
  | nil => simp [dictSet, dictGet, h2]
  | cons p d ih =>
      by_cases hp : p.1 = k
      · have hp' : p.1 ≠ k' := fun hc => h2 (hp ▸ hc)
        simp [dictSet, hp, dictGet, List.find?_cons, h2, hp']
      · by_cases hq : p.1 = k'
        · rw [dictSet, if_neg hp]
          simp [dictGet, List.find?_cons, hq]
        · rw [dictSet, if_neg hp]
          simpa [dictGet, List.find?_cons, hq] using ih

/-! ### Entry merge lemmas -/

theorem map_id_entryUpsert (m : List Entry) (e : Entry) :
    (entryUpsert m e).map Entry.id =
      if e.id ∈ m.map Entry.id then m.map Entry.id
      else m.map Entry.id ++ [e.id] := by
  induction m with
  | nil => simp [entryUpsert]
  | cons x m ih =>
      by_cases hx : x.id = e.id
      · simp [entryUpsert, hx]
      · have hx' : ¬ e.id = x.id := fun hc => hx hc.symm
        by_cases hm : e.id ∈ m.map Entry.id
        · simp [entryUpsert, hx, ih, hm, hx']
        · simp [entryUpsert, hx, ih, hm, hx']

theorem uniqueById_entryUpsert (m : List Entry) (e : Entry)
    (h : uniqueById m) : uniqueById (entryUpsert m e) := by
  unfold uniqueById at *
  rw [map_id_entryUpsert]
  by_cases hm : e.id ∈ m.map Entry.id
  · simpa [hm] using h
  · simp only [hm, if_false]
    have hdisj : ∀ x ∈ m, ¬ x.id = e.id := by
      intro x hx hc
      exact hm (hc ▸ List.mem_map_of_mem Entry.id hx)
    simpa [List.nodup_append] using ⟨h, hdisj⟩

theorem mem_entryUpsert_self (m : List Entry) (e : Entry) :
    e ∈ entryUpsert m e := by
  induction m with
  | nil => simp [entryUpsert]
  | cons x m ih =>
      by_cases hx : x.id = e.id
      · simp [entryUpsert, hx]
      · simp [entryUpsert, hx]
        right
        exact ih

theorem mem_entryUpsert_of_ne (m : List Entry) (e x : Entry)
    (h : x ∈ m) (hne : x.id ≠ e.id) : x ∈ entryUpsert m e := by
  induction m with
  | nil => cases h
  | cons y m ih =>
      by_cases hy : y.id = e.id
      · rcases List.mem_cons.mp h with rfl | hm
        · exact absurd hy hne
        · simp [entryUpsert, hy, hm]
      · rcases List.mem_cons.mp h with rfl | hm
        · simp [entryUpsert, hy]
        · simp only [entryUpsert, hy, if_false, List.mem_cons]
          right
          exact ih hm

theorem covers_entryUpsert (m : List Entry) (e a : Entry) (h : a ∈ m) :
    ∃ b ∈ entryUpsert m e, b.id = a.id := by
  by_cases hne : a.id = e.id
  · exact ⟨e, mem_entryUpsert_self m e, hne.symm⟩
  · exact ⟨a, mem_entryUpsert_of_ne m e a h hne, rfl⟩

theorem covers_foldl_acc (l : List Entry) :
    ∀ (m : List Entry) (a : Entry), a ∈ m →
      ∃ b ∈ l.foldl entryUpsert m, b.id = a.id := by
  induction l with
  | nil => exact fun m a h => ⟨a, h, rfl⟩
  | cons c l ih =>
      intro m a h
      rcases covers_entryUpsert m c a h with ⟨b1, hb1, hid1⟩
      rcases ih (entryUpsert m c) b1 hb1 with ⟨b, hb, hid⟩
      exact ⟨b, hb, hid.trans hid1⟩

theorem covers_foldl_list (l : List Entry) :
    ∀ (m : List Entry) (a : Entry), a ∈ l →
      ∃ b ∈ l.foldl entryUpsert m, b.id = a.id := by
  induction l with
  | nil => intro m a h; cases h
  | cons c l ih =>
      intro m a h
      rcases List.mem_cons.mp h with rfl | hm
      · exact covers_foldl_acc l (entryUpsert m a) a (mem_entryUpsert_self m a)
      · exact ih (entryUpsert m c) a hm

theorem uniqueById_foldl (l : List Entry) :
    ∀ (m : List Entry), uniqueById m →
      uniqueById (l.foldl entryUpsert m) := by
  induction l with
  | nil => exact fun m h => h
  | cons c l ih =>
      intro m h
      exact ih (entryUpsert m c) (uniqueById_entryUpsert m c h)

theorem mem_foldl_of_fresh (l : List Entry) :
    ∀ (m : List Entry) (b : Entry), b ∈ m → (∀ c ∈ l, c.id ≠ b.id) →
      b ∈ l.foldl entryUpsert m := by
  induction l with
  | nil => exact fun m b h _ => h
  | cons c l ih =>
      intro m b h hfresh
      refine ih (entryUpsert m c) b ?_ (fun x hx => hfresh x (List.mem_cons_of_mem c hx))
      exact mem_entryUpsert_of_ne m c b h
        (fun hc => hfresh c (List.mem_cons_self c l) hc.symm)

theorem mem_foldl_of_mem_uniq (l : List Entry) :
    ∀ (m : List Entry), uniqueById l → ∀ b ∈ l, b ∈ l.foldl entryUpsert m := by
  induction l with
  | nil => intro m _ b h; cases h
  | cons c l ih =>
      intro m hu b hb
      have hc : c.id ∉ l.map Entry.id := by
        simpa [uniqueById] using (List.nodup_cons.mp hu).1
      rcases List.mem_cons.mp hb with rfl | hm
      · refine mem_foldl_of_fresh l (entryUpsert m b) b
          (mem_entryUpsert_self m b) ?_
        intro x hx hc'
        exact hc (hc' ▸ List.mem_map_of_mem Entry.id hx)
      · exact ih (entryUpsert m c) ((List.nodup_cons.mp hu).2) b hm

theorem mem_sortByUpdatedAtDesc (l : List Entry) (x : Entry) :
    x ∈ sortByUpdatedAtDesc l ↔ x ∈ l :=
  List.mem_insertionSort entryGE

theorem uniqueById_sortByUpdatedAtDesc (l : List Entry)
    (h : uniqueById l) : uniqueById (sortByUpdatedAtDesc l) := by
  unfold uniqueById at *
  exact (((List.perm_insertionSort entryGE l).map Entry.id).nodup_iff).mpr h

theorem uniqueById_mergeEntries (existing new : List Entry) :
    uniqueById (mergeEntries existing new) := by
  apply uniqueById_sortByUpdatedAtDesc
  apply uniqueById_foldl
  apply uniqueById_foldl
  simp [uniqueById]

theorem mem_mergeEntries_of_mem_new (existing new : List Entry)
    (hnew : uniqueById new) (b : Entry) (hb : b ∈ new) :
    b ∈ mergeEntries existing new := by
  rw [mergeEntries, mem_sortByUpdatedAtDesc]
  exact mem_foldl_of_mem_uniq new (existing.foldl entryUpsert []) hnew b hb

theorem covers_mergeEntries_existing (existing new : List Entry)
    (a : Entry) (ha : a ∈ existing) :
    ∃ b ∈ mergeEntries existing new, b.id = a.id := by
  rcases covers_foldl_list existing [] a ha with ⟨b1, hb1, hid1⟩
  rcases covers_foldl_acc new (existing.foldl entryUpsert []) b1 hb1
    with ⟨b, hb, hid⟩
  exact ⟨b, (mem_sortByUpdatedAtDesc _ b).mpr hb, hid.trans hid1⟩

theorem covers_mergeEntries_new (existing new : List Entry)
    (a : Entry) (ha : a ∈ new) :
    ∃ b ∈ mergeEntries existing new, b.id = a.id := by
  rcases covers_foldl_list new (existing.foldl entryUpsert []) a ha
    with ⟨b, hb, hid⟩
  exact ⟨b, (mem_sortByUpdatedAtDesc _ b).mpr hb, hid⟩

theorem entryUpsert_fresh (m : List Entry) (e : Entry)
    (h : ∀ x ∈ m, x.id ≠ e.id) : entryUpsert m e = m ++ [e] := by
  induction m with
  | nil => simp [entryUpsert]
  | cons x m ih =>
      have hx : ¬ x.id = e.id := h x (List.mem_cons_self x m)
      simp only [entryUpsert, hx, if_false, List.cons_append, List.cons.injEq,
        true_and]
      exact ih (fun y hy => h y (List.mem_cons_of_mem x hy))

theorem foldl_entryUpsert_fresh (l : List Entry) :
    ∀ (m : List Entry), uniqueById l →
      (∀ a ∈ l, ∀ b ∈ m, b.id ≠ a.id) →
      l.foldl entryUpsert m = m ++ l := by
  induction l with
  | nil => simp
  | cons c l ih =>
      intro m hu hfresh
      have h1 : entryUpsert m c = m ++ [c] :=
        entryUpsert_fresh m c
          (fun x hx => hfresh c (List.mem_cons_self c l) x hx)
      have hc : c.id ∉ l.map Entry.id := by
        simpa [uniqueById] using (List.nodup_cons.mp hu).1
      have h2 : l.foldl entryUpsert (m ++ [c]) = (m ++ [c]) ++ l := by
        refine ih (m ++ [c]) ((List.nodup_cons.mp hu).2) ?_
        intro a ha b hb
        rcases List.mem_append.mp hb with hbm | hbc
        · exact hfresh a (List.mem_cons_of_mem c ha) b hbm
        · have hbc' : b = c := by simpa using hbc
          subst hbc'
          intro hcontra
          exact hc (hcontra ▸ List.mem_map_of_mem Entry.id ha)
      calc (c :: l).foldl entryUpsert m = l.foldl entryUpsert (entryUpsert m c) := rfl
        _ = l.foldl entryUpsert (m ++ [c]) := by rw [h1]
        _ = (m ++ [c]) ++ l := h2
        _ = m ++ (c :: l) := by simp

theorem entryUpsert_self (m : List Entry) (e : Entry)
    (hu : uniqueById m) (he : e ∈ m) : entryUpsert m e = m := by
  induction m with
  | nil => cases he
  | cons x m ih =>
      by_cases hx : x.id = e.id
      · have hex : e = x := by
          rcases List.mem_cons.mp he with rfl | hm
          · rfl
          · exfalso
            have : x.id ∉ m.map Entry.id := by
              simpa [uniqueById] using (List.nodup_cons.mp hu).1
            exact this (hx ▸ List.mem_map_of_mem Entry.id hm)
        simp [entryUpsert, hx, hex]
      · have hm : e ∈ m := by
          rcases List.mem_cons.mp he with rfl | hm
          · exact absurd rfl hx
          · exact hm
        simp only [entryUpsert, hx, if_false, List.cons.injEq, true_and]
        exact ih ((List.nodup_cons.mp hu).2) hm

theorem foldl_entryUpsert_self (l : List Entry) :
    ∀ (m : List Entry), uniqueById m → (∀ e ∈ l, e ∈ m) →
      l.foldl entryUpsert m = m := by
  induction l with
  | nil => intro m _ _; rfl
  | cons c l ih =>
      intro m hu hsub
      have h1 : entryUpsert m c = m :=
        entryUpsert_self m c hu (hsub c (List.mem_cons_self c l))
      calc (c :: l).foldl entryUpsert m = l.foldl entryUpsert (entryUpsert m c) := rfl
        _ = l.foldl entryUpsert m := by rw [h1]
        _ = m := ih m hu (fun e he => hsub e (List.mem_cons_of_mem c he))

/-! ### Sortedness lemmas -/

theorem sortedDesc_sortByUpdatedAtDesc (l : List Entry) :
    sortedDesc (sortByUpdatedAtDesc l) :=
  List.sorted_insertionSort entryGE l

theorem sortedDesc_mergeEntries (existing new : List Entry) :
    sortedDesc (mergeEntries existing new) :=
  sortedDesc_sortByUpdatedAtDesc _

theorem sortedDesc_filterSince (since : Int) (l : List Entry)
    (h : sortedDesc l) : sortedDesc (filterSince since l) :=
  List.Pairwise.sublist (List.filter_sublist l) h

theorem sortedDesc_applyEntries (es : List (List Entry)) :
    ∀ (rs : List FetchResult), (∀ l ∈ es, sortedDesc l) →
      ∀ l ∈ applyEntries es rs, sortedDesc l := by
  induction es with
  | nil =>
      intro rs _ l hl
      cases rs <;> simp [applyEntries] at hl
  | cons e es ih =>
      intro rs hs l hl
      cases rs with
      | nil => exact hs l hl
      | cons r rs =>
          simp only [applyEntries, List.mem_cons] at hl
          rcases hl with rfl | hl
          · by_cases hr : r.entries.isEmpty
            · simpa [hr] using hs e (List.mem_cons_self e es)
            · simpa [hr] using sortedDesc_mergeEntries e r.entries
          · exact ih rs (fun x hx => hs x (List.mem_cons_of_mem e hx)) l hl

/-! ### Day-granularity lemmas -/

theorem minutesPerDay_pos : (0 : Int) < minutesPerDay := by decide

theorem dateOf_le (t : Int) : dateOf t ≤ t := by
  have h := Int.emod_nonneg t (show minutesPerDay ≠ 0 by decide)
  unfold dateOf
  omega

theorem lt_dateOf_add (t : Int) : t < dateOf t + minutesPerDay := by
  have h := Int.emod_lt_of_pos t minutesPerDay_pos
  unfold dateOf
  omega

theorem minutesPerDay_dvd_dateOf (t : Int) : minutesPerDay ∣ dateOf t := by
  apply Int.dvd_of_emod_eq_zero
  unfold dateOf
  rw [Int.sub_emod, Int.emod_emod_of_dvd t dvd_rfl]
  simp

theorem stale_cond_iff (L D : Int) (hD : D % minutesPerDay = 0) :
    L < D ↔ dateOf L < D := by
  constructor
  · exact fun h => lt_of_le_of_lt (dateOf_le L) h
  · intro h
    have hdvd : minutesPerDay ∣ D - dateOf L :=
      dvd_sub (Int.dvd_of_emod_eq_zero hD) (minutesPerDay_dvd_dateOf L)
    have hle : minutesPerDay ≤ D - dateOf L :=
      Int.le_of_dvd (by omega) hdvd
    have hlt := lt_dateOf_add L
    omega

theorem cold_bound_emod (now mlb : Int) (h : mlb % minutesPerDay = 0) :
    (dateOf now - mlb) % minutesPerDay = 0 := by
  have h1 : dateOf now % minutesPerDay = 0 :=
    Int.emod_eq_zero_of_dvd (minutesPerDay_dvd_dateOf now)
  rw [Int.sub_emod, h1, h]
  simp

/-! ### Structural lemmas about `refreshStep` and `storeGet` -/

theorem refreshStep_def (s : DigestItemStore) (f : FetchFn) (now since : Int) :
    refreshStep s f now since =
      match fetchAll f s.options since s.items with
      | Except.error e => ({ s with lastEntry := now }, some e)
      | Except.ok results =>
          ({ s with
              lastEntry := now
              digests := applyDigests s.digests results
              entries := applyEntries s.entries results }, none) := rfl

theorem refreshStep_lastEntry (s : DigestItemStore) (f : FetchFn)
    (now since : Int) : (refreshStep s f now since).1.lastEntry = now := by
  rw [refreshStep_def]
  rcases fetchAll f s.options since s.items with e | rs <;> rfl

theorem refreshStep_fail (s : DigestItemStore) (f : FetchFn) (now since : Int)
    (hfail : ∀ o i σ, f o i σ = Except.error ())
    (hitems : s.items ≠ []) :
    refreshStep s f now since = ({ s with lastEntry := now }, some ()) := by
  rw [refreshStep_def]
  rcases hi : s.items with - | ⟨it, rest⟩
  · exact absurd hi hitems
  · simp [fetchAll, hi, hfail]

theorem storeGet_def (s : DigestItemStore) (f : FetchFn) (now σ : Int) :
    storeGet s f now σ =
      if s.lastEntry < dateOf now - s.maxLookBack then
        match refreshStep s f now (dateOf now - s.maxLookBack) with
        | (s', some e) => ⟨s', Except.error e, [dateOf now - s.maxLookBack]⟩
        | (s', none) =>
            ⟨s', Except.ok (views σ s'.digests s'.entries),
              [dateOf now - s.maxLookBack]⟩
      else if s.lastEntry + s.refreshAfter < now then
        match refreshStep s f now s.lastEntry with
        | (s', some e) => ⟨s', Except.error e, [s.lastEntry]⟩
        | (s', none) =>
            ⟨s', Except.ok (views σ s'.digests s'.entries), [s.lastEntry]⟩
      else ⟨s, Except.ok (views σ s.digests s.entries), []⟩ := by
  by_cases h1 : s.lastEntry < dateOf now - s.maxLookBack
  · simp only [storeGet, if_pos h1]
    rcases hr : refreshStep s f now (dateOf now - s.maxLookBack) with ⟨s', err⟩
    cases err <;> simp [hr]
  · by_cases h2 : s.lastEntry + s.refreshAfter < now
    · simp only [storeGet, if_neg h1, if_pos h2]
      rcases hr : refreshStep s f now s.lastEntry with ⟨s', err⟩
      cases err <;> simp [hr]
    · simp only [storeGet, if_neg h1, if_neg h2]

theorem storeGet_no_refresh (s : DigestItemStore) (f : FetchFn) (now σ : Int)
    (h1 : ¬ s.lastEntry < dateOf now - s.maxLookBack)
    (h2 : ¬ s.lastEntry + s.refreshAfter < now) :
    storeGet s f now σ = ⟨s, Except.ok (views σ s.digests s.entries), []⟩ := by
  rw [storeGet_def, if_neg h1, if_neg h2]

theorem storeGet_cold (s : DigestItemStore) (f : FetchFn) (now σ : Int)
    (h1 : s.lastEntry < dateOf now - s.maxLookBack) :
    (storeGet s f now σ).store =
        (refreshStep s f now (dateOf now - s.maxLookBack)).1
      ∧ (storeGet s f now σ).fetchCalls = [dateOf now - s.maxLookBack] := by
  rw [storeGet_def, if_pos h1]
  rcases hr : refreshStep s f now (dateOf now - s.maxLookBack) with ⟨s', err⟩
  cases err <;> exact ⟨rfl, rfl⟩

theorem storeGet_warm (s : DigestItemStore) (f : FetchFn) (now σ : Int)
    (h1 : ¬ s.lastEntry < dateOf now - s.maxLookBack)
    (h2 : s.lastEntry + s.refreshAfter < now) :
    (storeGet s f now σ).store = (refreshStep s f now s.lastEntry).1
      ∧ (storeGet s f now σ).fetchCalls = [s.lastEntry] := by
  rw [storeGet_def, if_neg h1, if_pos h2]
  rcases hr : refreshStep s f now s.lastEntry with ⟨s', err⟩
  cases err <;> exact ⟨rfl, rfl⟩

theorem storeGet_out_ok (s : DigestItemStore) (f : FetchFn) (now σ : Int)
    (v : List (String × List Entry))
    (h : (storeGet s f now σ).out = Except.ok v) :
    v = views σ (storeGet s f now σ).store.digests
          (storeGet s f now σ).store.entries := by
  rw [storeGet_def] at h ⊢
  by_cases h1 : s.lastEntry < dateOf now - s.maxLookBack
  · rw [if_pos h1] at h ⊢
    rcases hr : refreshStep s f now (dateOf now - s.maxLookBack) with ⟨s', err⟩
    rw [hr] at h
    cases err with
    | none => exact (Except.ok.inj h).symm
    | some e => exact Except.noConfusion h
  · rw [if_neg h1] at h ⊢
    by_cases h2 : s.lastEntry + s.refreshAfter < now
    · rw [if_pos h2] at h ⊢
      rcases hr : refreshStep s f now s.lastEntry with ⟨s', err⟩
      rw [hr] at h
      cases err with
      | none => exact (Except.ok.inj h).symm
      | some e => exact Except.noConfusion h
    · rw [if_neg h2] at h ⊢
      exact (Except.ok.inj h).symm

theorem storeGet_fetchCalls_values (s : DigestItemStore) (f : FetchFn)
    (now σ σ' : Int) (h : σ' ∈ (storeGet s f now σ).fetchCalls) :
    σ' = dateOf now - s.maxLookBack ∨ σ' = s.lastEntry := by
  rw [storeGet_def] at h
  by_cases h1 : s.lastEntry < dateOf now - s.maxLookBack
  · rw [if_pos h1] at h
    rcases hr : refreshStep s f now (dateOf now - s.maxLookBack) with ⟨s', err⟩
    rw [hr] at h
    cases err <;> simp at h <;> exact Or.inl h
  · rw [if_neg h1] at h
    by_cases h2 : s.lastEntry + s.refreshAfter < now
    · rw [if_pos h2] at h
      rcases hr : refreshStep s f now s.lastEntry with ⟨s', err⟩
      rw [hr] at h
      cases err <;> simp at h <;> exact Or.inr h
    · rw [if_neg h2] at h
      simp at h

/-! ### View (filtered read) lemmas -/

theorem views_cons (σ : Int) (d : String) (ds : List String)
    (e : List Entry) (es : List (List Entry)) :
    views σ (d :: ds) (e :: es) =
      (d, filterSince σ e) :: views σ ds es := by
  simp [views]

theorem views_getD (σ : Int) :
    ∀ (ds : List String) (es : List (List Entry)) (i : Nat),
      i < (views σ ds es).length →
      ((views σ ds es).getD i ("", [])).1 = ds.getD i ""
      ∧ ∀ e, e ∈ ((views σ ds es).getD i ("", [])).2 ↔
          (e ∈ es.getD i [] ∧ σ < e.updatedAt) := by
  intro ds
  induction ds with
  | nil =>
      intro es i h
      simp [views] at h
  | cons d ds ih =>
      intro es i h
      cases es with
      | nil => simp [views] at h
      | cons e es =>
          cases i with
          | zero =>
              rw [views_cons]
              refine ⟨rfl, ?_⟩
              intro x
              simp [filterSince, List.mem_filter]
          | succ i =>
              rw [views_cons] at h ⊢
              simp only [List.getD_cons_succ, List.length_cons,
                Nat.succ_lt_succ_iff] at h ⊢
              exact ih es i h

theorem views_length_eq (σ1 σ2 : Int) (ds : List String)
    (es : List (List Entry)) :
    (views σ1 ds es).length = (views σ2 ds es).length := by
  simp [views]

theorem views_mem (σ : Int) (ds : List String) (es : List (List Entry))
    (p : String × List Entry) (hp : p ∈ views σ ds es) :
    ∃ l ∈ es, p.2 = filterSince σ l := by
  simp only [views, List.mem_map] at hp
  rcases hp with ⟨q, hq, rfl⟩
  exact ⟨q.2, (List.of_mem_zip hq).2, rfl⟩

theorem storeGet_of_fetchCalls_nil (s : DigestItemStore) (f : FetchFn)
    (now σ : Int) (h : (storeGet s f now σ).fetchCalls = []) :
    storeGet s f now σ =
      ⟨s, Except.ok (views σ s.digests s.entries), []⟩ := by
  by_cases h1 : s.lastEntry < dateOf now - s.maxLookBack
  · exfalso
    have hc := (storeGet_cold s f now σ h1).2
    rw [h] at hc
    cases hc
  · by_cases h2 : s.lastEntry + s.refreshAfter < now
    · exfalso
      have hc := (storeGet_warm s f now σ h1 h2).2
      rw [h] at hc
      cases hc
    · exact storeGet_no_refresh s f now σ h1 h2

theorem storeGet_within_window (s : DigestItemStore) (g : FetchFn)
    (t t' τ' : Int) (h1 : t ≤ t') (h2 : t' ≤ t + s.refreshAfter)
    (h3 : s.refreshAfter ≤ s.maxLookBack) :
    storeGet { s with lastEntry := t } g t' τ' =
      ⟨{ s with lastEntry := t },
        Except.ok (views τ' s.digests s.entries), []⟩ := by
  have hd := dateOf_le t'
  have hc1 : ¬ ({ s with lastEntry := t } : DigestItemStore).lastEntry <
      dateOf t' - ({ s with lastEntry := t } : DigestItemStore).maxLookBack := by
    show ¬ t < dateOf t' - s.maxLookBack
    omega
  have hc2 : ¬ ({ s with lastEntry := t } : DigestItemStore).lastEntry +
      ({ s with lastEntry := t } : DigestItemStore).refreshAfter < t' := by
    show ¬ t + s.refreshAfter < t'
    omega
  rw [storeGet_no_refresh _ g t' τ' hc1 hc2]

theorem storeGet_fail_cases (s : DigestItemStore) (f : FetchFn) (t τ : Int)
    (hfail : ∀ o i σ, f o i σ = Except.error ())
    (hitems : s.items ≠ []) :
    (storeGet s f t τ).fetchCalls = []
    ∨ ((storeGet s f t τ).out = Except.error ()
        ∧ (storeGet s f t τ).store = { s with lastEntry := t }) := by
  by_cases h1 : s.lastEntry < dateOf t - s.maxLookBack
  · right
    rw [storeGet_def, if_pos h1,
      refreshStep_fail s f t (dateOf t - s.maxLookBack) hfail hitems]
    exact ⟨rfl, rfl⟩
  · by_cases h2 : s.lastEntry + s.refreshAfter < t
    · right
      rw [storeGet_def, if_neg h1, if_pos h2,
        refreshStep_fail s f t s.lastEntry hfail hitems]
      exact ⟨rfl, rfl⟩
    · left
      rw [storeGet_no_refresh s f t τ h1 h2]

theorem applyEntries_covers :
    ∀ (es : List (List Entry)) (rs : List FetchResult) (i : Nat) (e : Entry),
      e ∈ es.getD i [] →
      ∃ b ∈ (applyEntries es rs).getD i [], b.id = e.id := by
  intro es
  induction es with
  | nil =>
      intro rs i e he
      simp at he
  | cons l es ih =>
      intro rs i e he
      cases rs with
      | nil => exact ⟨e, by simpa [applyEntries] using he, rfl⟩
      | cons r rs =>
          cases i with
          | zero =>
              simp only [List.getD_cons_zero] at he
              by_cases hr : r.entries.isEmpty
              · exact ⟨e, by simp [applyEntries, hr, List.getD_cons_zero,  he], rfl⟩
              · rcases covers_mergeEntries_existing l r.entries e he
                  with ⟨b, hb, hid⟩
                exact ⟨b, by simpa [applyEntries, hr, List.getD_cons_zero]
                  using hb, hid⟩
          | succ i =>
              have he' : e ∈ es.getD i [] := by simpa using he
              rcases ih rs i e he' with ⟨b, hb, hid⟩
              exact ⟨b, by simpa [applyEntries] using hb, hid⟩

theorem refreshStep_entries_sorted (s : DigestItemStore) (f : FetchFn)
    (now σ : Int) (hs : ∀ l ∈ s.entries, sortedDesc l) :
    ∀ l ∈ (refreshStep s f now σ).1.entries, sortedDesc l := by
  rw [refreshStep_def]
  rcases fetchAll f s.options σ s.items with e | rs
  · exact hs
  · exact sortedDesc_applyEntries s.entries rs hs

theorem refreshStep_covers (s : DigestItemStore) (f : FetchFn)
    (now σ : Int) (i : Nat) (e : Entry) (he : e ∈ s.entries.getD i []) :
    ∃ b ∈ (refreshStep s f now σ).1.entries.getD i [], b.id = e.id := by
  rw [refreshStep_def]
  rcases fetchAll f s.options σ s.items with err | rs
  · exact ⟨e, he, rfl⟩
  · exact applyEntries_covers s.entries rs i e he

/-! ### Claim theorems -/

/-- Claim C2: every `get` on a per-key store evaluates staleness in this
order: if `now_date - maxLookBack > lastRefreshTime_date` it performs a
full refresh with `since = today - maxLookBack`; else if
`now - lastRefreshTime > refreshAfter` it performs an incremental refresh
with `since = lastRefreshTime`; otherwise it contacts upstream zero times
and serves the existing merged state.  (In the program `maxLookBack` is
always a whole number of days — seven by default — which the hypothesis
records.) -/
theorem claim_C2_staleness_policy (s : DigestItemStore) (f : FetchFn)
    (now σ : Int) (hday : s.maxLookBack % minutesPerDay = 0) :
    (dateOf now - s.maxLookBack > dateOf s.lastEntry →
        (storeGet s f now σ).fetchCalls = [dateOf now - s.maxLookBack]
        ∧ (storeGet s f now σ).store.lastEntry = now)
    ∧ (¬ dateOf now - s.maxLookBack > dateOf s.lastEntry →
        now - s.lastEntry > s.refreshAfter →
        (storeGet s f now σ).fetchCalls = [s.lastEntry]
        ∧ (storeGet s f now σ).store.lastEntry = now)
    ∧ (¬ dateOf now - s.maxLookBack > dateOf s.lastEntry →
        ¬ now - s.lastEntry > s.refreshAfter →
        (storeGet s f now σ).fetchCalls = []
        ∧ storeGet s f now σ =
            ⟨s, Except.ok (views σ s.digests s.entries), []⟩) := by
  have hiff := stale_cond_iff s.lastEntry (dateOf now - s.maxLookBack)
    (cold_bound_emod now s.maxLookBack hday)
  refine ⟨?_, ?_, ?_⟩
  · intro h
    have hc : s.lastEntry < dateOf now - s.maxLookBack := hiff.mpr h
    rcases storeGet_cold s f now σ hc with ⟨hs, hcalls⟩
    refine ⟨hcalls, ?_⟩
    rw [hs]
    exact refreshStep_lastEntry s f now (dateOf now - s.maxLookBack)
  · intro h h2
    have hc1 : ¬ s.lastEntry < dateOf now - s.maxLookBack :=
      fun hc => h (hiff.mp hc)
    have hc2 : s.lastEntry + s.refreshAfter < now := by omega
    rcases storeGet_warm s f now σ hc1 hc2 with ⟨hs, hcalls⟩
    refine ⟨hcalls, ?_⟩
    rw [hs]
    exact refreshStep_lastEntry s f now s.lastEntry
  · intro h h2
    have hc1 : ¬ s.lastEntry < dateOf now - s.maxLookBack :=
      fun hc => h (hiff.mp hc)
    have hc2 : ¬ s.lastEntry + s.refreshAfter < now := by omega
    rw [storeGet_no_refresh s f now σ hc1 hc2]
    exact ⟨rfl, rfl⟩

/-- Witness for C2 at a concrete store: a store last refreshed at minute 0
and read at minute 100 (inside the lookback window, past the 30-minute
refresh interval) performs exactly one incremental refresh from its
`lastEntry`. -/
theorem claim_C2_witness :
    exStore.maxLookBack % minutesPerDay = 0
    ∧ (storeGet exStore okFetch 100 0).fetchCalls = [exStore.lastEntry]
    ∧ (storeGet exStore okFetch 100 0).store.lastEntry = 100 := by
  refine ⟨by decide, ?_⟩
  exact (claim_C2_staleness_policy exStore okFetch 100 0 (by decide)).2.1
    (by decide) (by decide)

/-- Claim C3: in every refresh, `lastRefreshTime` is set to the current
time before the upstream fetch is awaited; if the fetch fails the
timestamp stays advanced and the rest of the state is untouched, and no
further refresh happens until `refreshAfter` next elapses (given the
refresh interval does not exceed the lookback, as with the 30-minute /
7-day defaults). -/
theorem claim_C3_lastRefresh_advanced (s : DigestItemStore) (f g : FetchFn)
    (now since t' since' : Int)
    (hfail : ∀ o i σ, f o i σ = Except.error ())
    (h1 : now ≤ t') (h2 : t' ≤ now + s.refreshAfter)
    (h3 : s.refreshAfter ≤ s.maxLookBack) :
    (refreshStep s g now since).1.lastEntry = now
    ∧ (refreshStep s f now since).1 = { s with lastEntry := now }
    ∧ (storeGet { s with lastEntry := now } g t' since').fetchCalls = [] := by
  refine ⟨refreshStep_lastEntry s g now since, ?_, ?_⟩
  · rcases hi : s.items with - | ⟨it, rest⟩
    · rw [refreshStep_def, hi]
      simp [fetchAll, applyDigests, applyEntries]
    · rw [refreshStep_fail s f now since hfail (by rw [hi]; simp), hi]
  · rw [storeGet_within_window s g now t' since' h1 h2 h3]

/-- Witness for C3 at a concrete store: the failing refresh at minute 100
leaves only `lastEntry` changed, and a read at minute 120 performs no
fetch. -/
theorem claim_C3_witness :
    (refreshStep exStore okFetch 100 0).1.lastEntry = 100
    ∧ (refreshStep exStore failFetch 100 0).1 = { exStore with lastEntry := 100 }
    ∧ (storeGet { exStore with lastEntry := 100 } okFetch 120 0).fetchCalls
        = [] :=
  claim_C3_lastRefresh_advanced exStore failFetch okFetch 100 0 120 0
    (fun _ _ _ => rfl) (by decide) (by decide) (by decide)

/-- Counterexample to C1 as stated: on a store holding last-known-good
data (`exStore.entries = [[e1]]`), a `get` at minute 100 whose upstream
fetch raises does **not** return the stale merged data — the call itself
propagates the error. -/
theorem claim_C1_counterexample :
    exStore.entries = [[e1]] ∧ exStore.digests = ["meta"]
    ∧ (storeGet exStore failFetch 100 0).out = Except.error () := by
  refine ⟨rfl, rfl, ?_⟩
  decide

/-- Claim C1 (amended): if the upstream fetch raises during a `get` that
refreshes, that call propagates the error; the stored merged entries and
metadata are retained and `lastRefreshTime` is advanced, so subsequent
calls inside the refresh window serve the stale last-known-good data with
zero upstream contacts. -/
theorem claim_C1_failure_degrades (s : DigestItemStore) (f g : FetchFn)
    (t τ t' τ' : Int)
    (hfail : ∀ o i σ, f o i σ = Except.error ())
    (hitems : s.items ≠ [])
    (htrig : (storeGet s f t τ).fetchCalls ≠ [])
    (h1 : t ≤ t') (h2 : t' ≤ t + s.refreshAfter)
    (h3 : s.refreshAfter ≤ s.maxLookBack) :
    (storeGet s f t τ).out = Except.error ()
    ∧ (storeGet s f t τ).store = { s with lastEntry := t }
    ∧ (storeGet ((storeGet s f t τ).store) g t' τ').fetchCalls = []
    ∧ (storeGet ((storeGet s f t τ).store) g t' τ').out =
        Except.ok (views τ' s.digests s.entries) := by
  rcases storeGet_fail_cases s f t τ hfail hitems with hnil | ⟨hout, hstore⟩
  · exact absurd hnil htrig
  · refine ⟨hout, hstore, ?_, ?_⟩
    · rw [hstore, storeGet_within_window s g t t' τ' h1 h2 h3]
    · rw [hstore, storeGet_within_window s g t t' τ' h1 h2 h3]

/-- Witness for the amended C1 at a concrete store: the failing `get` at
minute 100 errors, and the follow-up read at minute 120 serves the old
entry without fetching. -/
theorem claim_C1_witness :
    (storeGet exStore failFetch 100 0).out = Except.error ()
    ∧ (storeGet exStore failFetch 100 0).store = { exStore with lastEntry := 100 }
    ∧ (storeGet ((storeGet exStore failFetch 100 0).store) okFetch 120 300).fetchCalls = []
    ∧ (storeGet ((storeGet exStore failFetch 100 0).store) okFetch 120 300).out =
        Except.ok (views 300 exStore.digests exStore.entries) :=
  claim_C1_failure_degrades exStore failFetch okFetch 100 0 120 300
    (fun _ _ _ => rfl) (by decide) (by decide) (by decide) (by decide)
    (by decide)

/-- Claim C4: for entry lists unique by id, the merge output is unique by
id, every incoming entry appears in it, and for an id present in both
inputs the existing entry (when different from the incoming one) does not
appear — the incoming entry wins. -/
theorem claim_C4_merge_unique_incoming_wins (existing new : List Entry)
    (hex : uniqueById existing) (hnew : uniqueById new) :
    uniqueById (mergeEntries existing new)
    ∧ (∀ b ∈ new, b ∈ mergeEntries existing new)
    ∧ (∀ a ∈ existing, ∀ b ∈ new, a.id = b.id → a ≠ b →
        a ∉ mergeEntries existing new) := by
  refine ⟨uniqueById_mergeEntries existing new,
    fun b hb => mem_mergeEntries_of_mem_new existing new hnew b hb, ?_⟩
  intro a ha b hb hid hne hmem
  have hbmem := mem_mergeEntries_of_mem_new existing new hnew b hb
  exact hne (List.inj_on_of_nodup_map
    (uniqueById_mergeEntries existing new) hmem hbmem hid)

/-- Witness for C4: merging `[e1]` with `[e1b, e2]` (same id "1", newer
payload) keeps the output unique, contains the incoming `e1b`, and drops
the stale `e1`. -/
theorem claim_C4_witness :
    uniqueById (mergeEntries [e1] [e1b, e2])
    ∧ e1b ∈ mergeEntries [e1] [e1b, e2]
    ∧ e1 ∉ mergeEntries [e1] [e1b, e2] := by
  have h := claim_C4_merge_unique_incoming_wins [e1] [e1b, e2]
    (by decide) (by decide)
  exact ⟨h.1, h.2.1 e1b (by decide),
    h.2.2 e1 (by decide) e1b (by decide) (by decide) (by decide)⟩

/-- Claim C5: no entry is lost by merging or refreshing — every id of
either merge input is covered in the output, and after a `_refresh` every
previously stored id is still covered in the corresponding per-item entry
list (in particular a fetch over a narrower window removes nothing). -/
theorem claim_C5_merge_monotone (existing new : List Entry)
    (s : DigestItemStore) (f : FetchFn) (t σ : Int) :
    (∀ e ∈ existing, ∃ b ∈ mergeEntries existing new, b.id = e.id)
    ∧ (∀ e ∈ new, ∃ b ∈ mergeEntries existing new, b.id = e.id)
    ∧ (∀ (i : Nat) (e : Entry), e ∈ s.entries.getD i [] →
        ∃ b ∈ (refreshStep s f t σ).1.entries.getD i [], b.id = e.id) :=
  ⟨fun e he => covers_mergeEntries_existing existing new e he,
   fun e he => covers_mergeEntries_new existing new e he,
   fun i e he => refreshStep_covers s f t σ i e he⟩

/-- Witness for C5: the id of the stored `e1` is covered both in a merge
with disjoint incoming entries and in the store after a refresh. -/
theorem claim_C5_witness :
    (∃ b ∈ mergeEntries [e1] [e2], b.id = e1.id)
    ∧ (∃ b ∈ (refreshStep exStore okFetch 100 0).1.entries.getD 0 [],
        b.id = e1.id) :=
  ⟨(claim_C5_merge_monotone [e1] [e2] exStore okFetch 100 0).1 e1 (by decide),
   (claim_C5_merge_monotone [e1] [e2] exStore okFetch 100 0).2.2 0 e1
      (by decide)⟩

/-- Claim C8: merge is idempotent — for a list unique by id, merging it
with itself yields the list sorted by `updatedAt` in the configured
(descending) order. -/
theorem claim_C8_merge_idempotent (X : List Entry) (h : uniqueById X) :
    mergeEntries X X = sortByUpdatedAtDesc X := by
  have h1 : X.foldl entryUpsert [] = X := by
    have h0 := foldl_entryUpsert_fresh X [] h
      (fun a _ b hb => absurd hb (List.not_mem_nil b))
    simpa using h0
  rw [mergeEntries, h1,
    foldl_entryUpsert_self X X h (fun e he => he)]

/-- Witness for C8 on a concrete two-entry list. -/
theorem claim_C8_witness :
    uniqueById [e1, e2]
    ∧ mergeEntries [e1, e2] [e1, e2] = sortByUpdatedAtDesc [e1, e2] :=
  ⟨by decide, claim_C8_merge_idempotent [e1, e2] (by decide)⟩

/-- Claim C6: the view a `get(since)` returns pairs each item's current
metadata with exactly those stored merged entries whose `updatedAt` is
strictly greater than `since` (equal timestamps excluded); consequently,
for `since1 < since2` with no refresh around the calls, the `since1` view
is entrywise a superset of the `since2` view. -/
theorem claim_C6_filtered_reads (s : DigestItemStore) (f g : FetchFn)
    (now now1 now2 σ σ1 σ2 : Int) :
    (∀ v, (storeGet s f now σ).out = Except.ok v →
       ∀ i, i < v.length →
         (v.getD i ("", [])).1 = (storeGet s f now σ).store.digests.getD i ""
         ∧ ∀ e, e ∈ (v.getD i ("", [])).2 ↔
             (e ∈ (storeGet s f now σ).store.entries.getD i []
               ∧ σ < e.updatedAt))
    ∧ ((storeGet s f now1 σ1).fetchCalls = [] →
       (storeGet s g now2 σ2).fetchCalls = [] →
       σ1 < σ2 →
       ∀ v1 v2, (storeGet s f now1 σ1).out = Except.ok v1 →
         (storeGet s g now2 σ2).out = Except.ok v2 →
         ∀ (i : Nat) (e : Entry),
           e ∈ (v2.getD i ("", [])).2 → e ∈ (v1.getD i ("", [])).2) := by
  constructor
  · intro v hv i hi
    have hveq := storeGet_out_ok s f now σ v hv
    rw [hveq] at hi ⊢
    exact views_getD σ (storeGet s f now σ).store.digests
      (storeGet s f now σ).store.entries i hi
  · intro hn1 hn2 hσ v1 v2 hv1 hv2 i e he
    rw [storeGet_of_fetchCalls_nil s f now1 σ1 hn1] at hv1
    rw [storeGet_of_fetchCalls_nil s g now2 σ2 hn2] at hv2
    have hv1' : v1 = views σ1 s.digests s.entries :=
      (Except.ok.inj hv1).symm
    have hv2' : v2 = views σ2 s.digests s.entries :=
      (Except.ok.inj hv2).symm
    subst hv1' hv2'
    by_cases hi : i < (views σ2 s.digests s.entries).length
    · have h2 := views_getD σ2 s.digests s.entries i hi
      have hi1 : i < (views σ1 s.digests s.entries).length := by
        rw [views_length_eq σ1 σ2]
        exact hi
      have h1 := views_getD σ1 s.digests s.entries i hi1
      rcases (h2.2 e).mp he with ⟨hmem, hgt⟩
      exact (h1.2 e).mpr ⟨hmem, lt_trans hσ hgt⟩
    · rw [List.getD_eq_default _ _ (le_of_not_lt hi)] at he
      cases he

/-- Witness for C6: a warm store read at minute 100 with `since = 250`
returns its metadata `"meta"` paired with the single entry `e1`, whose
timestamp 500 exceeds 250. -/
theorem claim_C6_witness :
    ([("meta", [e1])].getD 0 ("", [])).1 =
      (storeGet exFresh okFetch 100 250).store.digests.getD 0 ""
    ∧ (e1 ∈ ([("meta", [e1])].getD 0 ("", [])).2 ↔
        (e1 ∈ (storeGet exFresh okFetch 100 250).store.entries.getD 0 []
          ∧ (250:Int) < e1.updatedAt)) := by
  have h := (claim_C6_filtered_reads exFresh okFetch okFetch
      100 100 100 250 0 0).1 [("meta", [e1])] (by decide) 0 (by decide)
  exact ⟨h.1, h.2 e1⟩

/-- Claim C7: every entry list a per-key store's `get` returns is ordered
by `updatedAt` descending — freshly constructed stores have (vacuously)
sorted entry lists, `get` preserves this invariant across refreshes, and
the returned filtered lists are sorted. -/
theorem claim_C7_sorted_desc (s : DigestItemStore) (f : FetchFn)
    (now σ : Int) (hs : ∀ l ∈ s.entries, sortedDesc l) :
    (∀ v, (storeGet s f now σ).out = Except.ok v →
        ∀ p ∈ v, sortedDesc p.2)
    ∧ (∀ l ∈ (storeGet s f now σ).store.entries, sortedDesc l)
    ∧ (∀ (opts : Options) (m ra t : Int) (s0 : DigestItemStore),
        initStore opts m ra t = some s0 → ∀ l ∈ s0.entries, sortedDesc l) := by
  have hstore : ∀ l ∈ (storeGet s f now σ).store.entries, sortedDesc l := by
    by_cases h1 : s.lastEntry < dateOf now - s.maxLookBack
    · rw [(storeGet_cold s f now σ h1).1]
      exact refreshStep_entries_sorted s f now _ hs
    · by_cases h2 : s.lastEntry + s.refreshAfter < now
      · rw [(storeGet_warm s f now σ h1 h2).1]
        exact refreshStep_entries_sorted s f now _ hs
      · rw [storeGet_no_refresh s f now σ h1 h2]
        exact hs
  refine ⟨?_, hstore, ?_⟩
  · intro v hv p hp
    have hveq := storeGet_out_ok s f now σ v hv
    rw [hveq] at hp
    rcases views_mem σ _ _ p hp with ⟨l, hl, hpl⟩
    rw [hpl]
    exact sortedDesc_filterSince σ l (hstore l hl)
  · intro opts m ra t s0 h0 l hl
    simp only [initStore] at h0
    split at h0
    · cases h0
      have hleq : l = [] := List.eq_of_mem_replicate hl
      rw [hleq]
      exact List.Pairwise.nil
    · cases h0

/-- Witness for C7: the store refreshed by `okFetch` at minute 100 holds a
descending entry list. -/
theorem claim_C7_witness :
    (∀ l ∈ exStore.entries, sortedDesc l)
    ∧ (∀ l ∈ (storeGet exStore okFetch 100 0).store.entries, sortedDesc l) :=
  ⟨by decide,
   (claim_C7_sorted_desc exStore okFetch 100 0 (by decide)).2.1⟩

/-- Claim C9: the registry constructs the per-key store lazily on the
first `get` for a key (and then that key maps to that store's post-call
state), every later `get` for the key delegates to the stored instance
without constructing another, other keys' stores are untouched, and no
key is ever evicted. -/
theorem claim_C9_registry_lazy_singleton (r : ItemStoreState) (d : Digest)
    (f : FetchFn) (now σ : Int) :
    (∀ s, dictGet r.stores d.filename = some s →
        registryGet r d f now σ =
          some ⟨{ r with
              stores := dictSet r.stores d.filename (storeGet s f now σ).store },
            (storeGet s f now σ).out, (storeGet s f now σ).fetchCalls,
            false⟩)
    ∧ (dictGet r.stores d.filename = none →
        ∀ s0, initStore d.options r.maxLookBack 30 now = some s0 →
          ∃ res, registryGet r d f now σ = some res ∧ res.created = true
            ∧ dictGet res.registry.stores d.filename =
                some (storeGet s0 f now σ).store)
    ∧ (∀ res, registryGet r d f now σ = some res →
        (∀ k, k ≠ d.filename →
            dictGet res.registry.stores k = dictGet r.stores k)
        ∧ (∀ k s1, dictGet r.stores k = some s1 →
            ∃ s2, dictGet res.registry.stores k = some s2)) := by
  refine ⟨?_, ?_, ?_⟩
  · intro s hs
    simp only [registryGet, hs]
  · intro hnone s0 hs0
    refine ⟨⟨{ r with
        stores := dictSet r.stores d.filename (storeGet s0 f now σ).store },
        (storeGet s0 f now σ).out, (storeGet s0 f now σ).fetchCalls, true⟩,
      ?_, rfl, ?_⟩
    · simp only [registryGet, hnone, hs0]
    · exact dictGet_dictSet_self r.stores d.filename _
  · intro res hres
    have hstores : ∃ sM, res.registry.stores =
        dictSet r.stores d.filename sM := by
      rcases hd : dictGet r.stores d.filename with - | s
      · rcases hi : initStore d.options r.maxLookBack 30 now with - | s0
        · simp only [registryGet, hd, hi] at hres
          cases hres
        · simp only [registryGet, hd, hi] at hres
          have hres' := Option.some.inj hres
          subst hres'
          exact ⟨_, rfl⟩
      · simp only [registryGet, hd] at hres
        have hres' := Option.some.inj hres
        subst hres'
        exact ⟨_, rfl⟩
    rcases hstores with ⟨sM, hsM⟩
    constructor
    · intro k hk
      rw [hsM]
      exact dictGet_dictSet_ne r.stores d.filename k sM hk
    · intro k s1 hs1
      by_cases hk : k = d.filename
      · subst hk
        exact ⟨sM, by
          rw [hsM]
          exact dictGet_dictSet_self r.stores d.filename sM⟩
      · exact ⟨s1, by
          rw [hsM, dictGet_dictSet_ne r.stores d.filename k sM hk]
          exact hs1⟩

/-- Witness for C9: the first `get` for `exDigest` on an empty registry
creates the store and leaves it under the key afterwards. -/
theorem claim_C9_witness :
    ∃ res, registryGet itemStoreInit exDigest okFetch 100 0 = some res
      ∧ res.created = true
      ∧ dictGet res.registry.stores exDigest.filename =
          some (storeGet exStore0 okFetch 100 0).store :=
  (claim_C9_registry_lazy_singleton itemStoreInit exDigest okFetch
    100 0).2.1 (by decide) exStore0 (by decide)

/-- Claim C10: constructing a per-key store removes `"since"`, `"digest"`
and `"items"` from the supplied options; a `"since"` value present in the
per-key configuration never influences the refresh window: construction
ignores it entirely, and the `since` values a `get` sends upstream are
exactly the staleness-policy ones (today minus lookback, or the previous
refresh time). -/
theorem claim_C10_options_stripped (opts : Options) (m ra t : Int)
    (s : DigestItemStore) (f : FetchFn) (now σ σ' : Int) :
    (∀ s0, initStore opts m ra t = some s0 →
        dictGet s0.options "since" = none
        ∧ dictGet s0.options "digest" = none
        ∧ dictGet s0.options "items" = none)
    ∧ initStore opts m ra t = initStore (dictPop opts "since") m ra t
    ∧ (σ' ∈ (storeGet s f now σ).fetchCalls →
        σ' = dateOf now - s.maxLookBack ∨ σ' = s.lastEntry) := by
  refine ⟨?_, ?_, fun h => storeGet_fetchCalls_values s f now σ σ' h⟩
  · intro s0 h0
    simp only [initStore] at h0
    split at h0
    · cases h0
      refine ⟨?_, ?_, ?_⟩
      · exact dictGet_dictPop_none _ "since" "items"
          (dictGet_dictPop_none _ "since" "digest"
            (dictGet_dictPop_self opts "since"))
      · exact dictGet_dictPop_none _ "digest" "items"
          (dictGet_dictPop_self (dictPop opts "since") "digest")
      · exact dictGet_dictPop_self
          (dictPop (dictPop opts "since") "digest") "items"
    · cases h0
  · simp only [initStore, dictPop_dictPop_self]

/-- Witness for C10: the store built from options carrying all three
reserved keys retains none of them, construction is insensitive to the
`"since"` key, and a concrete stale read fetches with the policy's
`since`. -/
theorem claim_C10_witness :
    (dictGet exStoreOpts.options "since" = none
      ∧ dictGet exStoreOpts.options "digest" = none
      ∧ dictGet exStoreOpts.options "items" = none)
    ∧ initStore exOpts 10080 30 100 =
        initStore (dictPop exOpts "since") 10080 30 100
    ∧ ((0:Int) = dateOf 100 - exStore.maxLookBack
        ∨ (0:Int) = exStore.lastEntry) := by
  have h := claim_C10_options_stripped exOpts 10080 30 100
    exStore okFetch 100 0 0
  exact ⟨h.1 exStoreOpts (by decide), h.2.1, h.2.2 (by decide)⟩

end DinghyWeb
